import Mathlib

/-!
Verification of the RBF repository's memoizing cache (`rbf/utils.py`) and
the RBF-FD assembly script (`docs/scripts/fd.e.py`) against its
natural-language specification.

Shallow embedding conventions:
* a numpy array argument is modelled as a value of an arbitrary type `α`
  together with a serialization function `tb : α → Option Bytes`
  (`tb a = none` models an argument lacking the `tobytes` attribute, in
  which case Python raises before touching the cache);
* the `OrderedDict` cache is a list of (key, value) pairs whose head is
  the oldest-inserted entry (`popitem(0)` pops the head, insertion of a
  new key appends at the tail);
* real-valued numpy computations are modelled over `ℝ`.
-/

namespace RBFSpec

/-! ## Memoizing cache model (`rbf/utils.py`, class `Memoize`) -/

/-- A byte string, the result of `ndarray.tobytes()`. -/
abbrev Bytes := List Nat

/-- A cache key: `tuple(a.tobytes() for a in args)`, one byte string per
argument, in argument order. -/
abbrev MemoKey := List Bytes

/-- The `OrderedDict` cache: head is the oldest-inserted entry. -/
abbrev MemoCache (V : Type) := List (MemoKey × V)

/-- Class-level constant `Memoize.MAX_CACHE_SIZE = 100`. -/
def MAX_CACHE_SIZE : Nat := 100

/-- Key construction `key = tuple(a.tobytes() for a in args)`; evaluation is
left to right and fails (raises) at the first argument lacking `tobytes`. -/
def tupleTobytes {α : Type} (tb : α → Option Bytes) : List α → Option MemoKey
  | [] => some []
  | a :: rest =>
    match tb a with
    | none => none
    | some b => (tupleTobytes tb rest).map (fun r => b :: r)

/-- Dictionary lookup `self.cache[key]` / membership `key in self.cache`. -/
def cacheFind {V : Type} : MemoCache V → MemoKey → Option V
  | [], _ => none
  | (k, v) :: rest, key => if k = key then some v else cacheFind rest key

/-- The eviction loop
`while len(self.cache) >= Memoize.MAX_CACHE_SIZE: self.cache.popitem(0)`:
drop oldest-inserted entries (the head) until below capacity. -/
def makeRoom {V : Type} : MemoCache V → MemoCache V
  | [] => []
  | e :: rest =>
    if MAX_CACHE_SIZE ≤ (e :: rest).length then makeRoom rest else e :: rest

/-- Result of one `Memoize.__call__`: the returned value (or the
propagated key-construction error), the cache afterwards, and how many
times the wrapped function `fin` was invoked during the call. -/
structure MemoResult (V : Type) where
  ret : Except Unit V
  cache : MemoCache V
  calls : Nat

/-- One `Memoize.__call__(*args)`: build the key (propagating a
serialization failure with the cache untouched), return the cached value
on a hit, otherwise make room, invoke `fin`, store and return its value. -/
def memoCall {α V : Type} (tb : α → Option Bytes) (fin : List α → V)
    (cache : MemoCache V) (args : List α) : MemoResult V :=
  match tupleTobytes tb args with
  | none => ⟨Except.error (), cache, 0⟩
  | some key =>
    match cacheFind cache key with
    | some v => ⟨Except.ok v, cache, 0⟩
    | none => ⟨Except.ok (fin args), makeRoom cache ++ [(key, fin args)], 1⟩

/-- A sequence of calls on one `Memoize` instance, threading the cache. -/
def runCalls {α V : Type} (tb : α → Option Bytes) (fin : List α → V) :
    List (List α) → MemoCache V → MemoCache V
  | [], c => c
  | a :: rest, c => runCalls tb fin rest (memoCall tb fin c a).cache

/-! ### Cache helper lemmas -/

theorem memoCall_error_eq {α V : Type} (tb : α → Option Bytes)
    (fin : List α → V) (cache : MemoCache V) (args : List α)
    (h : tupleTobytes tb args = none) :
    memoCall tb fin cache args = ⟨Except.error (), cache, 0⟩ := by
  simp [memoCall, h]

theorem memoCall_hit_eq {α V : Type} (tb : α → Option Bytes)
    (fin : List α → V) (cache : MemoCache V) (args : List α)
    (key : MemoKey) (v : V) (h : tupleTobytes tb args = some key)
    (hf : cacheFind cache key = some v) :
    memoCall tb fin cache args = ⟨Except.ok v, cache, 0⟩ := by
  simp [memoCall, h, hf]

theorem memoCall_miss_eq {α V : Type} (tb : α → Option Bytes)
    (fin : List α → V) (cache : MemoCache V) (args : List α)
    (key : MemoKey) (h : tupleTobytes tb args = some key)
    (hf : cacheFind cache key = none) :
    memoCall tb fin cache args
      = ⟨Except.ok (fin args), makeRoom cache ++ [(key, fin args)], 1⟩ := by
  simp [memoCall, h, hf]

theorem makeRoom_length_lt {V : Type} (c : MemoCache V) :
    (makeRoom c).length < MAX_CACHE_SIZE := by
  induction c with
  | nil => simp [makeRoom, MAX_CACHE_SIZE]
  | cons e rest ih =>
    rw [makeRoom]
    by_cases h : MAX_CACHE_SIZE ≤ (e :: rest).length
    · rw [if_pos h]
      exact ih
    · rw [if_neg h]
      exact Nat.lt_of_not_le h

theorem makeRoom_of_lt {V : Type} (c : MemoCache V)
    (h : c.length < MAX_CACHE_SIZE) : makeRoom c = c := by
  cases c with
  | nil => rfl
  | cons e rest => rw [makeRoom, if_neg (Nat.not_le_of_lt h)]

theorem makeRoom_of_full {V : Type} (c : MemoCache V)
    (h : c.length = MAX_CACHE_SIZE) : makeRoom c = c.tail := by
  cases c with
  | nil => simp [MAX_CACHE_SIZE] at h
  | cons e rest =>
    rw [makeRoom, if_pos (le_of_eq h.symm)]
    apply makeRoom_of_lt
    have : rest.length + 1 = MAX_CACHE_SIZE := by simpa using h
    omega

theorem cacheFind_makeRoom_none {V : Type} (c : MemoCache V) (k : MemoKey)
    (h : cacheFind c k = none) : cacheFind (makeRoom c) k = none := by
  induction c with
  | nil => simpa [makeRoom] using h
  | cons e rest ih =>
    rw [makeRoom]
    rw [cacheFind] at h
    by_cases hle : MAX_CACHE_SIZE ≤ (e :: rest).length
    · rw [if_pos hle]
      apply ih
      by_cases hk : e.1 = k
      · simp [hk] at h
      · simpa [hk] using h
    · rw [if_neg hle, cacheFind]
      by_cases hk : e.1 = k
      · simp [hk] at h
      · simpa [hk] using h

theorem cacheFind_append_self {V : Type} (c : MemoCache V) (k : MemoKey)
    (v : V) (h : cacheFind c k = none) :
    cacheFind (c ++ [(k, v)]) k = some v := by
  induction c with
  | nil => simp [cacheFind]
  | cons e rest ih =>
    rw [cacheFind] at h
    by_cases hk : e.1 = k
    · simp [hk] at h
    · rw [List.cons_append, cacheFind, if_neg hk]
      exact ih (by simpa [hk] using h)

theorem cacheFind_append_other {V : Type} (c : MemoCache V) (k k' : MemoKey)
    (v : V) (hne : k ≠ k') (h : cacheFind c k' = none) :
    cacheFind (c ++ [(k, v)]) k' = none := by
  induction c with
  | nil => simp [cacheFind, hne]
  | cons e rest ih =>
    rw [cacheFind] at h
    by_cases hk : e.1 = k'
    · simp [hk] at h
    · rw [List.cons_append, cacheFind, if_neg hk]
      exact ih (by simpa [hk] using h)

/-! ### Claim theorems about the cache -/

/-- Claim C1: for every `Memoize` instance wrapping a function `fin`, if
the instance is called twice in succession with argument tuples whose
arrays are bit-identical (equal `tobytes` per argument) and that key is
not already cached, the underlying function `fin` is invoked exactly once
(once by the first call, zero times by the second) and both calls return
the value that invocation produced. -/
theorem memoize_bit_identical_calls_invoke_once {α V : Type}
    (tb : α → Option Bytes) (fin : List α → V) (cache : MemoCache V)
    (args1 args2 : List α) (key : MemoKey)
    (h1 : tupleTobytes tb args1 = some key)
    (h2 : tupleTobytes tb args2 = some key)
    (hmiss : cacheFind cache key = none) :
    (memoCall tb fin cache args1).calls = 1 ∧
    (memoCall tb fin (memoCall tb fin cache args1).cache args2).calls = 0 ∧
    (memoCall tb fin cache args1).ret = Except.ok (fin args1) ∧
    (memoCall tb fin (memoCall tb fin cache args1).cache args2).ret
      = Except.ok (fin args1) := by
  have hc1 : memoCall tb fin cache args1
      = ⟨Except.ok (fin args1), makeRoom cache ++ [(key, fin args1)], 1⟩ := by
    simp [memoCall, h1, hmiss]
  have hfound : cacheFind (makeRoom cache ++ [(key, fin args1)]) key
      = some (fin args1) :=
    cacheFind_append_self _ _ _ (cacheFind_makeRoom_none _ _ hmiss)
  have hc2 : memoCall tb fin (makeRoom cache ++ [(key, fin args1)]) args2
      = ⟨Except.ok (fin args1), makeRoom cache ++ [(key, fin args1)], 0⟩ := by
    simp [memoCall, h2, hfound]
  refine ⟨?_, ?_, ?_, ?_⟩ <;> simp [hc1, hc2]

/-- Witness for C1: a concrete memoized function called twice on the same
one-element argument tuple from an empty cache. -/
theorem memoize_bit_identical_calls_invoke_once_witness :
    (memoCall (fun a : Nat => some [a]) (fun l => l.length) [] [5]).calls = 1 ∧
    (memoCall (fun a : Nat => some [a]) (fun l => l.length)
      (memoCall (fun a : Nat => some [a]) (fun l => l.length) [] [5]).cache
      [5]).calls = 0 ∧
    (memoCall (fun a : Nat => some [a]) (fun l => l.length) [] [5]).ret
      = Except.ok 1 ∧
    (memoCall (fun a : Nat => some [a]) (fun l => l.length)
      (memoCall (fun a : Nat => some [a]) (fun l => l.length) [] [5]).cache
      [5]).ret = Except.ok 1 :=
  memoize_bit_identical_calls_invoke_once (fun a : Nat => some [a])
    (fun l => l.length) [] [5] [5] [[5]] rfl rfl rfl

theorem memoCall_cache_length_le {α V : Type} (tb : α → Option Bytes)
    (fin : List α → V) (cache : MemoCache V) (args : List α)
    (h : cache.length ≤ MAX_CACHE_SIZE) :
    (memoCall tb fin cache args).cache.length ≤ MAX_CACHE_SIZE := by
  cases hk : tupleTobytes tb args with
  | none => simpa [memoCall_error_eq tb fin cache args hk] using h
  | some key =>
    cases hf : cacheFind cache key with
    | some v => simpa [memoCall_hit_eq tb fin cache args key v hk hf] using h
    | none =>
      have hlt := makeRoom_length_lt (V := V) cache
      simp [memoCall_miss_eq tb fin cache args key hk hf]
      omega

theorem runCalls_length_le {α V : Type} (tb : α → Option Bytes)
    (fin : List α → V) (calls : List (List α)) (cache : MemoCache V)
    (h : cache.length ≤ MAX_CACHE_SIZE) :
    (runCalls tb fin calls cache).length ≤ MAX_CACHE_SIZE := by
  induction calls generalizing cache with
  | nil => simpa [runCalls] using h
  | cons a rest ih =>
    rw [runCalls]
    exact ih _ (memoCall_cache_length_le tb fin cache a h)

/-- Claim C2: for every `Memoize` instance and every sequence of calls
starting from the fresh empty cache, the cache never holds more than
`MAX_CACHE_SIZE` entries; and when a new key is inserted into a cache
already at capacity, the oldest-inserted entry (the head of the
insertion-ordered cache) is evicted first — FIFO by insertion order. -/
theorem memoize_cache_bounded_and_fifo {α V : Type}
    (tb : α → Option Bytes) (fin : List α → V) (calls : List (List α))
    (cache : MemoCache V) (args : List α) (key : MemoKey)
    (hkey : tupleTobytes tb args = some key)
    (hmiss : cacheFind cache key = none)
    (hfull : cache.length = MAX_CACHE_SIZE) :
    (runCalls tb fin calls []).length ≤ MAX_CACHE_SIZE ∧
    (memoCall tb fin cache args).cache = cache.tail ++ [(key, fin args)] := by
  constructor
  · exact runCalls_length_le tb fin calls [] (by simp)
  · simp [memoCall, hkey, hmiss, makeRoom_of_full cache hfull]

/-- Cache holding `MAX_CACHE_SIZE` distinct single-argument keys, used
to witness the eviction behaviour at capacity. -/
def fullCacheExample : MemoCache Nat :=
  (List.range MAX_CACHE_SIZE).map (fun i => ([[i]], 0))

/-- Witness for C2: two concrete calls stay within the bound, and one
concrete insertion into a full cache evicts exactly the oldest entry. -/
theorem memoize_cache_bounded_and_fifo_witness :
    (runCalls (fun a : Nat => some [a]) (fun l => l.length)
      [[1], [2]] []).length ≤ MAX_CACHE_SIZE ∧
    (memoCall (fun a : Nat => some [a]) (fun l => l.length) fullCacheExample
      [200]).cache = fullCacheExample.tail ++ [([[200]], 1)] :=
  memoize_cache_bounded_and_fifo (fun a : Nat => some [a])
    (fun l => l.length) [[1], [2]] fullCacheExample [200] [[200]]
    rfl (by decide) (by decide)

/-- The `tobytes` map for an argument modelled directly by its bytes. -/
def tbId : List Nat → Option Bytes := fun a => some a

/-- A wrapped function returning the number of arguments it was given. -/
def finNargs : List (List Nat) → Nat := fun l => l.length

/-- Claim C7 is false as stated: the cache key is the tuple of
per-argument byte strings, not their concatenation. Here the single
argument with bytes `[0, 1]` and the pair of arguments with bytes `[0]`
and `[1]` concatenate to the same byte string, yet the second call is a
miss: it invokes the wrapped function again and returns a different
value than the first call's cached result. -/
theorem memoize_concat_key_counterexample :
    List.foldr (· ++ ·) [] ([[0, 1]] : List (List Nat))
      = List.foldr (· ++ ·) [] ([[0], [1]] : List (List Nat)) ∧
    (memoCall tbId finNargs (memoCall tbId finNargs [] [[0, 1]]).cache
      [[0], [1]]).calls = 1 ∧
    (memoCall tbId finNargs (memoCall tbId finNargs [] [[0, 1]]).cache
      [[0], [1]]).ret = Except.ok 2 ∧
    (memoCall tbId finNargs [] [[0, 1]]).ret = Except.ok 1 ∧
    (Except.ok 2 : Except Unit Nat) ≠ Except.ok 1 := by
  refine ⟨rfl, rfl, rfl, rfl, ?_⟩
  intro h
  exact absurd (Except.ok.inj h) (by decide)

/-- Claim C7 (amended): the cache key is the tuple of per-argument byte
representations in argument order; two fresh argument tuples are treated
as identical inputs (the second call is a cache hit returning the first
call's result without invoking the wrapped function) precisely when
their per-argument byte tuples are equal, and otherwise the second call
invokes the wrapped function again. -/
theorem memoize_key_is_per_argument_tuple {α V : Type}
    (tb : α → Option Bytes) (fin : List α → V) (cache : MemoCache V)
    (args1 args2 : List α) (k1 k2 : MemoKey)
    (h1 : tupleTobytes tb args1 = some k1)
    (h2 : tupleTobytes tb args2 = some k2)
    (hm1 : cacheFind cache k1 = none)
    (hm2 : cacheFind cache k2 = none) :
    (memoCall tb fin (memoCall tb fin cache args1).cache args2).calls
      = (if k1 = k2 then 0 else 1) ∧
    (k1 = k2 →
      (memoCall tb fin (memoCall tb fin cache args1).cache args2).ret
        = Except.ok (fin args1)) := by
  have hc1 : memoCall tb fin cache args1
      = ⟨Except.ok (fin args1), makeRoom cache ++ [(k1, fin args1)], 1⟩ :=
    memoCall_miss_eq tb fin cache args1 k1 h1 hm1
  by_cases hk : k1 = k2
  · subst hk
    have hfound : cacheFind (makeRoom cache ++ [(k1, fin args1)]) k1
        = some (fin args1) :=
      cacheFind_append_self _ _ _ (cacheFind_makeRoom_none _ _ hm1)
    have hc2 : memoCall tb fin (makeRoom cache ++ [(k1, fin args1)]) args2
        = ⟨Except.ok (fin args1), makeRoom cache ++ [(k1, fin args1)], 0⟩ :=
      memoCall_hit_eq tb fin _ args2 k1 (fin args1) h2 hfound
    refine ⟨?_, fun _ => ?_⟩ <;> simp [hc1, hc2]
  · have hnone : cacheFind (makeRoom cache ++ [(k1, fin args1)]) k2 = none :=
      cacheFind_append_other _ _ _ _ hk (cacheFind_makeRoom_none _ _ hm2)
    have hc2 : memoCall tb fin (makeRoom cache ++ [(k1, fin args1)]) args2
        = ⟨Except.ok (fin args2),
            makeRoom (makeRoom cache ++ [(k1, fin args1)]) ++ [(k2, fin args2)],
            1⟩ :=
      memoCall_miss_eq tb fin _ args2 k2 h2 hnone
    refine ⟨?_, fun h => absurd h hk⟩
    simp [hc1, hc2, hk]

/-- Witness for the amended C7: two concrete fresh argument tuples with
different per-argument byte tuples make the second call a miss. -/
theorem memoize_key_is_per_argument_tuple_witness :
    (memoCall tbId finNargs (memoCall tbId finNargs [] [[0]]).cache
      [[1]]).calls = (if ([[0]] : MemoKey) = [[1]] then 0 else 1) ∧
    (([[0]] : MemoKey) = [[1]] →
      (memoCall tbId finNargs (memoCall tbId finNargs [] [[0]]).cache
        [[1]]).ret = Except.ok (finNargs [[0]])) :=
  memoize_key_is_per_argument_tuple tbId finNargs [] [[0]] [[1]]
    [[0]] [[1]] rfl rfl rfl rfl

theorem tupleTobytes_eq_none {α : Type} (tb : α → Option Bytes)
    (args : List α) (h : ∃ a ∈ args, tb a = none) :
    tupleTobytes tb args = none := by
  induction args with
  | nil => simp at h
  | cons a rest ih =>
    rcases h with ⟨b, hb, hnone⟩
    rcases List.mem_cons.mp hb with rfl | hmem
    · simp [tupleTobytes, hnone]
    · cases hta : tb a with
      | none => simp [tupleTobytes, hta]
      | some bb => simp [tupleTobytes, hta, ih ⟨b, hmem, hnone⟩]

/-- Claim C8: if any argument to a memoized call lacks byte-serialization
capability, key construction fails and the error propagates to the
caller; the wrapped function is not invoked and the cache is left
completely unchanged (nothing is cached for the failed call). -/
theorem memoize_serialization_failure_propagates {α V : Type}
    (tb : α → Option Bytes) (fin : List α → V) (cache : MemoCache V)
    (args : List α) (h : ∃ a ∈ args, tb a = none) :
    memoCall tb fin cache args = ⟨Except.error (), cache, 0⟩ := by
  simp [memoCall, tupleTobytes_eq_none tb args h]

/-- Witness for C8: a concrete argument without `tobytes` propagates the
error and leaves the one-entry cache unchanged. -/
theorem memoize_serialization_failure_propagates_witness :
    memoCall (fun _ : Nat => (none : Option Bytes)) (fun l => l.length)
      ([([[7]], 5)] : MemoCache Nat) [3]
      = ⟨Except.error (), [([[7]], 5)], 0⟩ :=
  memoize_serialization_failure_propagates _ _ _ _ ⟨3, by simp, rfl⟩

/-! ## Instance registry model (`Memoize.INSTANCES` and `clear_caches`) -/

/-- The class-level list `Memoize.INSTANCES` of weak references: an entry
is `some cache` while the referenced instance is alive (holding that
instance's current cache) and `none` once it has been garbage-collected
(the weak reference stays in the list but dereferences to nothing). -/
abbrev Registry (V : Type) := List (Option (MemoCache V))

/-- Function `clear_caches()`: for every registered weak reference, if the
instance is still alive give it a fresh empty cache, otherwise skip it. -/
def clear_caches {V : Type} (reg : Registry V) : Registry V :=
  reg.map (fun r => match r with | none => none | some _ => some [])

/-- Events touching the registry: `Memoize.__init__` (appends a weak
reference to a fresh instance with an empty cache), a `__call__` on a
live instance, garbage collection of an instance, and `clear_caches()`. -/
inductive MemoEvent (α V : Type) where
  | construct
  | call (k : Nat) (tb : α → Option Bytes) (fin : List α → V) (args : List α)
  | collect (k : Nat)
  | clearAll

/-- Effect of one event on the registry. Only `construct` changes the
list of entries; the other events at most mutate or kill what an entry
refers to. -/
def stepEvent {α V : Type} (reg : Registry V) : MemoEvent α V → Registry V
  | .construct => reg ++ [some []]
  | .call k tb fin args =>
    match reg.get? k with
    | some (some c) => reg.set k (some (memoCall tb fin c args).cache)
    | _ => reg
  | .collect k => reg.set k none
  | .clearAll => clear_caches reg

/-- A whole process history acting on the registry. -/
def runEvents {α V : Type} : Registry V → List (MemoEvent α V) → Registry V
  | reg, [] => reg
  | reg, ev :: rest => runEvents (stepEvent reg ev) rest

theorem clear_caches_length {V : Type} (reg : Registry V) :
    (clear_caches reg).length = reg.length := by
  simp [clear_caches]

theorem clear_caches_get {V : Type} (reg : Registry V) (k : Nat) :
    (clear_caches reg).get? k
      = (reg.get? k).map (fun r => match r with | none => none | some _ => some []) := by
  simp [clear_caches, List.get?_map]

/-- Claim C9: `clear_caches()` keeps every registry entry, gives every
still-alive instance a fresh empty cache, and is a no-op (rather than an
error) on entries whose instance has been garbage-collected. -/
theorem clear_caches_empties_live_skips_dead {V : Type} (reg : Registry V) :
    (clear_caches reg).length = reg.length ∧
    (∀ k c, reg.get? k = some (some c) →
      (clear_caches reg).get? k = some (some ([] : MemoCache V))) ∧
    (∀ k, reg.get? k = some none →
      (clear_caches reg).get? k = some none) := by
  refine ⟨clear_caches_length reg, ?_, ?_⟩
  · intro k c hk
    rw [clear_caches_get, hk]
    rfl
  · intro k hk
    rw [clear_caches_get, hk]
    rfl

/-- Witness for C9: a concrete registry with one live instance (a cache
holding one entry) and one collected instance. -/
theorem clear_caches_empties_live_skips_dead_witness :
    (clear_caches ([some [([[1]], 2)], none] : Registry Nat)).length
      = ([some [([[1]], 2)], none] : Registry Nat).length ∧
    (clear_caches ([some [([[1]], 2)], none] : Registry Nat)).get? 0
      = some (some ([] : MemoCache Nat)) ∧
    (clear_caches ([some [([[1]], 2)], none] : Registry Nat)).get? 1
      = some none :=
  ⟨(clear_caches_empties_live_skips_dead ([some [([[1]], 2)], none])).1,
   (clear_caches_empties_live_skips_dead ([some [([[1]], 2)], none])).2.1
      0 [([[1]], 2)] rfl,
   (clear_caches_empties_live_skips_dead ([some [([[1]], 2)], none])).2.2
      1 rfl⟩

theorem stepEvent_length_ge {α V : Type} (reg : Registry V)
    (ev : MemoEvent α V) : reg.length ≤ (stepEvent reg ev).length := by
  cases ev with
  | construct => simp [stepEvent]
  | call k tb fin args =>
    rw [stepEvent]
    cases hk : reg.get? k with
    | none => exact le_refl _
    | some r =>
      cases r with
      | none => exact le_refl _
      | some c => simp
  | collect k => simp [stepEvent]
  | clearAll => simp [stepEvent, clear_caches_length]

theorem stepEvent_dead_stays_dead {α V : Type} (reg : Registry V)
    (ev : MemoEvent α V) (k : Nat) (h : reg.get? k = some none) :
    (stepEvent reg ev).get? k = some none := by
  have hklt : k < reg.length := (List.get?_eq_some.mp h).1
  cases ev with
  | construct =>
    rw [stepEvent, List.get?_append hklt]
    exact h
  | call j tb fin args =>
    rw [stepEvent]
    cases hj : reg.get? j with
    | none => exact h
    | some r =>
      cases r with
      | none => exact h
      | some c =>
        by_cases hjk : j = k
        · subst hjk
          rw [hj] at h
          exact absurd (Option.some.inj h) (by simp)
        · rw [List.get?_set_ne _ _ hjk]
          exact h
  | collect j =>
    by_cases hjk : j = k
    · subst hjk
      rw [stepEvent, List.get?_set_eq_of_lt none hklt]
    · rw [stepEvent, List.get?_set_ne _ _ hjk]
      exact h
  | clearAll =>
    rw [stepEvent, clear_caches_get, h]
    rfl

theorem runEvents_length_ge {α V : Type} (reg : Registry V)
    (evs : List (MemoEvent α V)) :
    reg.length ≤ (runEvents reg evs).length := by
  induction evs generalizing reg with
  | nil => exact le_refl _
  | cons ev rest ih =>
    rw [runEvents]
    exact le_trans (stepEvent_length_ge reg ev) (ih _)

theorem runEvents_dead_stays_dead {α V : Type} (reg : Registry V)
    (evs : List (MemoEvent α V)) (k : Nat) (h : reg.get? k = some none) :
    (runEvents reg evs).get? k = some none := by
  induction evs generalizing reg with
  | nil => exact h
  | cons ev rest ih =>
    rw [runEvents]
    exact ih _ (stepEvent_dead_stays_dead reg ev k h)

/-- Claim C10: the registry `Memoize.INSTANCES` only ever grows — each
construction appends exactly one weak reference, no event shortens the
list, the length is monotone over any process history, and an entry
whose instance has been collected stays in the registry (still dead)
through any further history: dead references accumulate for the lifetime
of the process. -/
theorem memoize_registry_only_grows {α V : Type} (reg : Registry V)
    (evs : List (MemoEvent α V)) (k : Nat) :
    (stepEvent reg (MemoEvent.construct : MemoEvent α V))
      = reg ++ [some []] ∧
    (∀ ev : MemoEvent α V, reg.length ≤ (stepEvent reg ev).length) ∧
    reg.length ≤ (runEvents reg evs).length ∧
    (reg.get? k = some none → (runEvents reg evs).get? k = some none) :=
  ⟨rfl, stepEvent_length_ge reg, runEvents_length_ge reg evs,
   runEvents_dead_stays_dead reg evs k⟩

/-- Registry with one live and one already-collected instance, for the
registry-growth witness. -/
def regExample : Registry Nat := [some [], none]

/-- A concrete process history: one construction, one call, one garbage
collection and one global cache clear. -/
def eventsExample : List (MemoEvent Nat Nat) :=
  [MemoEvent.construct,
   MemoEvent.call 0 (fun a => some [a]) (fun l => l.length) [3],
   MemoEvent.collect 0, MemoEvent.clearAll]

/-- Witness for C10: a concrete two-entry registry with a dead reference
at position 1, run through a construct / call / collect / clear history. -/
theorem memoize_registry_only_grows_witness :
    stepEvent regExample (MemoEvent.construct : MemoEvent Nat Nat)
      = regExample ++ [some []] ∧
    regExample.length ≤ (runEvents regExample eventsExample).length ∧
    (runEvents regExample eventsExample).get? 1 = some none :=
  ⟨(memoize_registry_only_grows regExample eventsExample 1).1,
   (memoize_registry_only_grows regExample eventsExample 1).2.2.1,
   (memoize_registry_only_grows regExample eventsExample 1).2.2.2 rfl⟩

/-! ## RBF-FD assembly script model (`docs/scripts/fd.e.py`) -/

/-- Function `find_orthogonals` of `fd.e.py` applied to one row of the
input batch: first component `-np.sum(n, axis=1) + n[:,0]`, second
component `n[:,0]`, then division by the row's Euclidean norm. -/
noncomputable def find_orthogonals (n : ℝ × ℝ) : ℝ × ℝ :=
  ((-(n.1 + n.2) + n.1) / Real.sqrt ((-(n.1 + n.2) + n.1) ^ 2 + n.1 ^ 2),
   n.1 / Real.sqrt ((-(n.1 + n.2) + n.1) ^ 2 + n.1 ^ 2))

theorem find_orthogonals_eq (n : ℝ × ℝ) (h : n.1 ^ 2 + n.2 ^ 2 = 1) :
    find_orthogonals n = (-n.2, n.1) := by
  have h1 : -(n.1 + n.2) + n.1 = -n.2 := by ring
  have h2 : (-(n.1 + n.2) + n.1) ^ 2 + n.1 ^ 2 = 1 := by
    rw [h1]
    nlinarith [h]
  rw [find_orthogonals, h2, Real.sqrt_one, div_one, div_one, h1]

/-- Claim C3: for every batch of unit-length 2D normal vectors, every row
of `find_orthogonals` is orthogonal to the corresponding normal within
1e-9 and has Euclidean norm within 1e-9 of 1. -/
theorem find_orthogonals_orthonormal (l : List (ℝ × ℝ))
    (hl : ∀ nv ∈ l, nv.1 ^ 2 + nv.2 ^ 2 = 1) :
    ∀ nv ∈ l,
      |nv.1 * (find_orthogonals nv).1 + nv.2 * (find_orthogonals nv).2|
        < 1 / 1000000000 ∧
      |Real.sqrt ((find_orthogonals nv).1 ^ 2 + (find_orthogonals nv).2 ^ 2) - 1|
        < 1 / 1000000000 := by
  intro nv hmem
  have h := hl nv hmem
  rw [find_orthogonals_eq nv h]
  constructor
  · have e : nv.1 * (-nv.2, nv.1).1 + nv.2 * (-nv.2, nv.1).2 = 0 := by
      show nv.1 * -nv.2 + nv.2 * nv.1 = 0
      ring
    rw [e]
    norm_num
  · have e : (-nv.2, nv.1).1 ^ 2 + (-nv.2, nv.1).2 ^ 2 = 1 := by
      show (-nv.2) ^ 2 + nv.1 ^ 2 = 1
      nlinarith [h]
    rw [e, Real.sqrt_one]
    norm_num

/-- Witness for C3: the unit normal (1, 0). -/
theorem find_orthogonals_orthonormal_witness :
    |((1 : ℝ), (0 : ℝ)).1 * (find_orthogonals (1, 0)).1
        + ((1 : ℝ), (0 : ℝ)).2 * (find_orthogonals (1, 0)).2|
      < 1 / 1000000000 ∧
    |Real.sqrt ((find_orthogonals (1, 0)).1 ^ 2 + (find_orthogonals (1, 0)).2 ^ 2)
        - 1| < 1 / 1000000000 :=
  find_orthogonals_orthonormal [(1, 0)]
    (by
      intro nv hnv
      rw [List.mem_singleton] at hnv
      subst hnv
      norm_num)
    (1, 0) (List.mem_singleton.mpr rfl)

/-- A sparse matrix, modelled by its entries. -/
abbrev Mat := Nat → Nat → ℝ

/-- The four directional sub-blocks xx, xy, yx, yy returned by the
external stencil builders (`elastic2d_body_force`,
`elastic2d_surface_force`, `elastic2d_displacement`) and also the shape
of the four assembled global blocks. -/
structure ElasticBlocks where
  xx : Mat
  xy : Mat
  yx : Mat
  yy : Mat

/-- Position of a global row index in a target index list (first
occurrence), or `none` when the row is not targeted. -/
def rowPos : List Nat → Nat → Option Nat
  | [], _ => none
  | t :: rest, i => if t = i then some 0 else (rowPos rest i).map (· + 1)

/-- Modelled from the spec: `rbf.fd.add_rows` is code of this repository
that is not under `src/`. Per the specification's assembly algorithm the
rows of the stencil block `B` are written at the pass's target index
list `idx` of the global block `G` (row r of `B` supersedes global row
`idx[r]`); rows outside the target set keep their previous value. -/
def add_rows (G B : Mat) (idx : List Nat) : Mat :=
  fun i j =>
    match rowPos idx i with
    | some r => B r j
    | none => G i j

/-- Row scaling `sp.diags(d).dot(B)`: multiply row i of B by d i. -/
noncomputable def diagMul (d : Nat → ℝ) (B : Mat) : Mat :=
  fun i j => d i * B i j

/-- Entrywise sum of two sparse blocks. -/
noncomputable def matAdd (A B : Mat) : Mat := fun i j => A i j + B i j

/-- The zero sparse matrix `sp.csc_matrix((N, N))`. -/
noncomputable def zeroMat : Mat := fun _ _ => 0

theorem rowPos_get {idx : List Nat} (hnd : idx.Nodup) (k : Nat)
    (hk : k < idx.length) : rowPos idx idx[k] = some k := by
  induction idx generalizing k with
  | nil => cases hk
  | cons t rest ih =>
    cases k with
    | zero => simp [rowPos]
    | succ m =>
      have hm : m < rest.length := Nat.lt_of_succ_lt_succ hk
      have hget : (t :: rest)[m + 1] = rest[m] := rfl
      have hne : t ≠ rest[m] := fun he =>
        (List.nodup_cons.mp hnd).1 (by rw [he]; exact List.getElem_mem hm)
      rw [hget, rowPos, if_neg hne, ih (List.nodup_cons.mp hnd).2 m hm]
      rfl

theorem add_rows_target (G B : Mat) {idx : List Nat} (hnd : idx.Nodup)
    (k : Nat) (hk : k < idx.length) (j : Nat) :
    add_rows G B idx idx[k] j = B k j := by
  simp [add_rows, rowPos_get hnd k hk]

/-- The left-hand-side assembly of `fd.e.py` (lines 76-122): body-force
passes for the interior rows and the two ghost row sets, the
free-surface traction pass, the roller normal-displacement pass (the
displacement operator's x and y sub-blocks scaled per row by the roller
normal components and written to the xx and xy global blocks), and the
roller tangential-traction pass (two surface-force sub-blocks scaled by
the components of `find_orthogonals` of the roller normals and summed
into each of the yx and yy global blocks). The external stencil
builders' outputs enter as parameters. -/
noncomputable def assembleLHS (interior bfree broller gfree groller : List Nat)
    (normals : Nat → ℝ × ℝ)
    (bodyInterior bodyFree bodyRoller surfFree surfRoller dispRoller :
      ElasticBlocks) : ElasticBlocks :=
  let gxx1 := add_rows zeroMat bodyInterior.xx interior
  let gxy1 := add_rows zeroMat bodyInterior.xy interior
  let gyx1 := add_rows zeroMat bodyInterior.yx interior
  let gyy1 := add_rows zeroMat bodyInterior.yy interior
  let gxx2 := add_rows gxx1 bodyFree.xx gfree
  let gxy2 := add_rows gxy1 bodyFree.xy gfree
  let gyx2 := add_rows gyx1 bodyFree.yx gfree
  let gyy2 := add_rows gyy1 bodyFree.yy gfree
  let gxx3 := add_rows gxx2 bodyRoller.xx groller
  let gxy3 := add_rows gxy2 bodyRoller.xy groller
  let gyx3 := add_rows gyx2 bodyRoller.yx groller
  let gyy3 := add_rows gyy2 bodyRoller.yy groller
  let gxx4 := add_rows gxx3 surfFree.xx bfree
  let gxy4 := add_rows gxy3 surfFree.xy bfree
  let gyx4 := add_rows gyx3 surfFree.yx bfree
  let gyy4 := add_rows gyy3 surfFree.yy bfree
  let nx : Nat → ℝ := fun k => (normals (broller.getD k 0)).1
  let ny : Nat → ℝ := fun k => (normals (broller.getD k 0)).2
  let gxx5 := add_rows gxx4 (diagMul nx dispRoller.xx) broller
  let gxy5 := add_rows gxy4 (diagMul ny dispRoller.yy) broller
  let tx : Nat → ℝ := fun k =>
    (find_orthogonals (normals (broller.getD k 0))).1
  let ty : Nat → ℝ := fun k =>
    (find_orthogonals (normals (broller.getD k 0))).2
  let gyx5 := add_rows gyx4
    (matAdd (diagMul tx surfRoller.xx) (diagMul ty surfRoller.yx)) broller
  let gyy5 := add_rows gyy4
    (matAdd (diagMul tx surfRoller.xy) (diagMul ty surfRoller.yy)) broller
  ⟨gxx5, gxy5, gyx5, gyy5⟩

/-- Claim C4: the roller tangential-traction pass adds two weighted
stencil contributions into the same target rows: at every roller row the
yx global block holds t_x-scaled xx plus t_y-scaled yx surface-force
entries and the yy global block holds t_x-scaled xy plus t_y-scaled yy
surface-force entries, where t is the tangential (orthogonal-complement)
vector of that roller node's normal; both combinations sit in the
y-equation blocks. -/
theorem roller_tangential_combines_blocks
    (interior bfree broller gfree groller : List Nat)
    (normals : Nat → ℝ × ℝ)
    (bodyInterior bodyFree bodyRoller surfFree surfRoller dispRoller :
      ElasticBlocks)
    (hnd : broller.Nodup) (k : Nat) (hk : k < broller.length) (j : Nat) :
    (assembleLHS interior bfree broller gfree groller normals
        bodyInterior bodyFree bodyRoller surfFree surfRoller dispRoller).yx
        broller[k] j
      = (find_orthogonals (normals broller[k])).1 * surfRoller.xx k j
        + (find_orthogonals (normals broller[k])).2 * surfRoller.yx k j ∧
    (assembleLHS interior bfree broller gfree groller normals
        bodyInterior bodyFree bodyRoller surfFree surfRoller dispRoller).yy
        broller[k] j
      = (find_orthogonals (normals broller[k])).1 * surfRoller.xy k j
        + (find_orthogonals (normals broller[k])).2 * surfRoller.yy k j := by
  have hget : broller[k]? = some broller[k] := List.getElem?_eq_getElem hk
  constructor <;>
  · simp only [assembleLHS]
    rw [add_rows_target _ _ hnd k hk j]
    simp [matAdd, diagMul, hget]

/-- Claim C5 (amended): the roller normal-displacement pass evaluates an
interpolation/identity operator at the roller nodes, scales its
x-sub-block per row by the normal's x-component and its y-sub-block by
the normal's y-component, and writes the two scaled blocks at the roller
rows into the xx and the xy global blocks respectively — both rows of
the x-equation band, which together encode the dot product n·u at those
nodes (the y-equation rows carry the tangential-traction pass instead). -/
theorem roller_normal_displacement_scaled_blocks
    (interior bfree broller gfree groller : List Nat)
    (normals : Nat → ℝ × ℝ)
    (bodyInterior bodyFree bodyRoller surfFree surfRoller dispRoller :
      ElasticBlocks)
    (hnd : broller.Nodup) (k : Nat) (hk : k < broller.length) (j : Nat) :
    (assembleLHS interior bfree broller gfree groller normals
        bodyInterior bodyFree bodyRoller surfFree surfRoller dispRoller).xx
        broller[k] j
      = (normals broller[k]).1 * dispRoller.xx k j ∧
    (assembleLHS interior bfree broller gfree groller normals
        bodyInterior bodyFree bodyRoller surfFree surfRoller dispRoller).xy
        broller[k] j
      = (normals broller[k]).2 * dispRoller.yy k j := by
  have hget : broller[k]? = some broller[k] := List.getElem?_eq_getElem hk
  constructor <;>
  · simp only [assembleLHS]
    rw [add_rows_target _ _ hnd k hk j]
    simp [diagMul, hget]

/-- A concrete constant stencil block. -/
noncomputable def constMat (c : ℝ) : Mat := fun _ _ => c

/-- Concrete displacement-operator blocks, all entries 5. -/
noncomputable def dispBlocksEx : ElasticBlocks :=
  ⟨constMat 5, constMat 5, constMat 5, constMat 5⟩

/-- Concrete surface-force blocks: xx = 11, xy = 3, yx = 13, yy = 7. -/
noncomputable def surfBlocksEx : ElasticBlocks :=
  ⟨constMat 11, constMat 3, constMat 13, constMat 7⟩

/-- Concrete body-force blocks, all zero. -/
noncomputable def bodyBlocksEx : ElasticBlocks :=
  ⟨constMat 0, constMat 0, constMat 0, constMat 0⟩

/-- Concrete normals: every node's outward normal is the unit vector
(0, 1). -/
noncomputable def normalsEx : Nat → ℝ × ℝ := fun _ => (0, 1)

/-- A concrete assembly with a single roller node of index 0 and all
other node groups empty. -/
noncomputable def assembledEx : ElasticBlocks :=
  assembleLHS [] [] [0] [] [] normalsEx
    bodyBlocksEx bodyBlocksEx bodyBlocksEx surfBlocksEx surfBlocksEx
    dispBlocksEx

theorem find_orthogonals_zero_one : find_orthogonals ((0 : ℝ), (1 : ℝ)) = (-1, 0) := by
  have h : find_orthogonals ((0 : ℝ), (1 : ℝ)) = (-(1 : ℝ), 0) :=
    find_orthogonals_eq (0, 1) (by norm_num)
  simpa using h

/-- Claim C5 is false as stated: in a concrete assembly with one roller
node whose normal is (0, 1), the normal-y-scaled y-sub-block of the
displacement operator (value 1 * 5 = 5) is not what the y-equation
holds at the roller row — the yy global block there holds the
tangential-traction combination -1 * 3 + 0 * 7 = -3 instead, while the
scaled y-sub-block is written into the xy global block of the
x-equation band. -/
theorem roller_normal_displacement_counterexample :
    assembledEx.yy 0 0 ≠ (normalsEx 0).2 * dispBlocksEx.yy 0 0 ∧
    assembledEx.xy 0 0 = (normalsEx 0).2 * dispBlocksEx.yy 0 0 ∧
    assembledEx.yy 0 0 = -3 ∧
    (normalsEx 0).2 * dispBlocksEx.yy 0 0 = 5 := by
  have hyy : assembledEx.yy 0 0 = -3 := by
    simp [assembledEx, assembleLHS, add_rows, rowPos, matAdd, diagMul,
      List.getD, normalsEx, surfBlocksEx, constMat, find_orthogonals_zero_one]
  have hxy : assembledEx.xy 0 0 = 5 := by
    simp [assembledEx, assembleLHS, add_rows, rowPos, diagMul,
      List.getD, normalsEx, dispBlocksEx, constMat]
  have hval : (normalsEx 0).2 * dispBlocksEx.yy 0 0 = 5 := by
    simp [normalsEx, dispBlocksEx, constMat]
  refine ⟨?_, by rw [hxy, hval], hyy, hval⟩
  rw [hyy, hval]
  norm_num

/-- Witness for C4: the tangential combination at the concrete roller
assembly, where t = (-1, 0). -/
theorem roller_tangential_combines_blocks_witness :
    assembledEx.yx 0 0
      = (find_orthogonals (normalsEx 0)).1 * surfBlocksEx.xx 0 0
        + (find_orthogonals (normalsEx 0)).2 * surfBlocksEx.yx 0 0 ∧
    assembledEx.yy 0 0
      = (find_orthogonals (normalsEx 0)).1 * surfBlocksEx.xy 0 0
        + (find_orthogonals (normalsEx 0)).2 * surfBlocksEx.yy 0 0 :=
  roller_tangential_combines_blocks [] [] [0] [] [] normalsEx
    bodyBlocksEx bodyBlocksEx bodyBlocksEx surfBlocksEx surfBlocksEx
    dispBlocksEx (by simp) 0 (by simp) 0

/-- Witness for the amended C5: the scaled displacement blocks land in
the xx and xy global blocks at the concrete roller assembly. -/
theorem roller_normal_displacement_scaled_blocks_witness :
    assembledEx.xx 0 0 = (normalsEx 0).1 * dispBlocksEx.xx 0 0 ∧
    assembledEx.xy 0 0 = (normalsEx 0).2 * dispBlocksEx.yy 0 0 :=
  roller_normal_displacement_scaled_blocks [] [] [0] [] [] normalsEx
    bodyBlocksEx bodyBlocksEx bodyBlocksEx surfBlocksEx surfBlocksEx
    dispBlocksEx (by simp) 0 (by simp) 0

/-! ## Ghost-node filtering of the reported fields (`fd.e.py` lines 170-178) -/

/-- Modelled from the spec: the node generator `min_energy_nodes` is code
of this repository that is not under `src/`. Per the specification's data
model the Node Set is an ordered sequence with the ghost nodes appended
after the interior and true boundary nodes, and the index groups are the
corresponding ordered blocks of indices: `ni` interior node indices
first. -/
def interiorIdx (ni : Nat) : List Nat := List.range' 0 ni

/-- The `nr` roller-boundary node indices, following the interior block
(see `interiorIdx` for the modelling note). -/
def rollerIdx (ni nr : Nat) : List Nat := List.range' ni nr

/-- The `nf` free-boundary node indices, following the roller block. -/
def freeIdx (ni nr nf : Nat) : List Nat := List.range' (ni + nr) nf

/-- The `ng` ghost node indices, appended at the end of the Node Set. -/
def ghostIdx (ni nr nf ng : Nat) : List Nat := List.range' (ni + nr + nf) ng

/-- Line 171 of `fd.e.py`:
`idx_no_ghosts = np.hstack((idx[interior], idx[boundary:roller], idx[boundary:free]))`. -/
def idxNoGhosts (ni nr nf : Nat) : List Nat :=
  interiorIdx ni ++ rollerIdx ni nr ++ freeIdx ni nr nf

/-- Lines 175-178 of `fd.e.py`: a reported output field (displacement,
strain or stress component), i.e. the nodal field values sampled at the
retained indices in retained order. -/
def fieldNoGhosts (ni nr nf : Nat) (u : Nat → ℝ) : List ℝ :=
  (idxNoGhosts ni nr nf).map u

theorem idxNoGhosts_eq_range' (ni nr nf : Nat) :
    idxNoGhosts ni nr nf = List.range' 0 (ni + nr + nf) := by
  rw [idxNoGhosts, interiorIdx, rollerIdx, freeIdx, List.append_assoc,
    List.range'_append_1 ni nr nf]
  have h := List.range'_append_1 0 ni (nf + nr)
  rw [Nat.zero_add] at h
  rw [h]
  congr 1
  omega

/-- Claim C6: the reported output fields are exactly the nodal fields
sampled at the non-ghost indices: every ghost index is excluded, every
interior and true-boundary index is retained, and the retained index
list is strictly increasing, so the retained nodes keep their relative
order from the Node Set. -/
theorem output_excludes_ghosts_preserves_order (ni nr nf ng : Nat)
    (u : Nat → ℝ) :
    fieldNoGhosts ni nr nf u = (List.range' 0 (ni + nr + nf)).map u ∧
    (∀ g ∈ ghostIdx ni nr nf ng, g ∉ idxNoGhosts ni nr nf) ∧
    (∀ m, m < ni + nr + nf → m ∈ idxNoGhosts ni nr nf) ∧
    List.Sorted (· < ·) (idxNoGhosts ni nr nf) := by
  refine ⟨?_, ?_, ?_, ?_⟩
  · rw [fieldNoGhosts, idxNoGhosts_eq_range']
  · intro g hg
    rw [ghostIdx, List.mem_range'_1] at hg
    rw [idxNoGhosts_eq_range', List.mem_range'_1]
    omega
  · intro m hm
    rw [idxNoGhosts_eq_range', List.mem_range'_1]
    omega
  · rw [idxNoGhosts_eq_range']
    exact List.pairwise_lt_range' 0 (ni + nr + nf)

/-- Witness for C6: with one interior, one roller, one free and one
ghost node, node 2 is retained and the ghost node 3 is excluded. -/
theorem output_excludes_ghosts_preserves_order_witness :
    (2 ∈ idxNoGhosts 1 1 1) ∧ (3 ∉ idxNoGhosts 1 1 1) :=
  ⟨(output_excludes_ghosts_preserves_order 1 1 1 1 (fun m => (m : ℝ))).2.2.1
      2 (by norm_num),
   (output_excludes_ghosts_preserves_order 1 1 1 1 (fun m => (m : ℝ))).2.1
      3 (by decide)⟩

end RBFSpec
